import Mathlib

/-!
Verification of the `errorvec` library: an aggregate error container
(`ErrorVec`, a newtype over `Vec<E>`) and an iterator adapter
(`ResultIterator::into_errorvec_result`) that drains a sequence of
`Result` values into either the ordered list of successes or a populated
`ErrorVec` of all failures.

The embedding models `Vec<E>` as `List E`, Rust `Result<T, E>` as
`Except E T`, the `&mut self` methods by explicit state passing, and the
`Display` implementation as a `String`-producing function parameterised
by each element's own rendering.  Rust's `str::trim_end` is modelled over
`List Char` with `Char.isWhitespace` as the whitespace class (the ASCII
fragment of Unicode `White_Space`, which covers all characters the
rendering contract is concerned with).
-/

/-- Model of Rust `str::trim_end` on the underlying character list:
drop the longest whitespace suffix. -/
def trimEndData (cs : List Char) : List Char :=
  (cs.reverse.dropWhile Char.isWhitespace).reverse

/-- Model of Rust `str::trim_end` on strings. -/
def rustTrimEnd (s : String) : String :=
  ⟨trimEndData s.data⟩

/-- `ErrorVec<E>` from `src/errorvec.rs`: a newtype wrapper around `Vec<E>`. -/
structure ErrorVec (E : Type) where
  toList : List E
deriving DecidableEq, Repr

variable {E O T : Type}

/-- `impl Default for ErrorVec<E>`: `ErrorVec(vec![])`. -/
def ErrorVec.default : ErrorVec E :=
  ⟨[]⟩

/-- `Vec::push` reached through the `DerefMut` impl (`Target = Vec<E>`):
appends one element at the end of the underlying vector. -/
def ErrorVec.push (ev : ErrorVec E) (e : E) : ErrorVec E :=
  ⟨ev.toList ++ [e]⟩

/-- `Vec::is_empty` reached through the `Deref` impl. -/
def ErrorVec.is_empty (ev : ErrorVec E) : Bool :=
  ev.toList.isEmpty

/-- `Vec::len` reached through the `Deref` impl. -/
def ErrorVec.len (ev : ErrorVec E) : Nat :=
  ev.toList.length

/-- `ErrorVec::into_result_with`: `if self.is_empty() { Ok(value) } else { Err(self) }`. -/
def ErrorVec.into_result_with (ev : ErrorVec E) (value : T) : Except (ErrorVec E) T :=
  if ev.is_empty then Except.ok value else Except.error ev

/-- `ErrorVec::into_result`: `self.into_result_with(())`. -/
def ErrorVec.into_result (ev : ErrorVec E) : Except (ErrorVec E) Unit :=
  ev.into_result_with ()

/-- `ErrorVec::take_error`: on `Ok(x)` return `Some(x)` leaving the vector
untouched; on `Err(e)` push `e` and return `None`.  The `&mut self`
receiver is modelled by returning the updated container alongside the
`Option` result. -/
def ErrorVec.take_error (ev : ErrorVec E) (r : Except E T) : ErrorVec E × Option T :=
  match r with
  | Except.ok x => (ev, some x)
  | Except.error e => (ev.push e, none)

/-- `impl FromIterator<E> for ErrorVec<E>`: `ErrorVec(iter.into_iter().collect())`.
Collecting an iterator into a `Vec` keeps every element in order, so on the
list model it wraps the list verbatim. -/
def ErrorVec.from_iter (l : List E) : ErrorVec E :=
  ⟨l⟩

/-- `impl IntoIterator for ErrorVec<E>`: `self.0.into_iter()`, i.e. the
underlying vector's elements in order. -/
def ErrorVec.into_iter (ev : ErrorVec E) : List E :=
  ev.toList

/-- The loop body of `impl Display for ErrorVec` (`src/errorvec.rs`), unrolled
over the remaining messages with `i` the current `enumerate` index:
`writeln!(f, "[error {} of {}] {}", i + 1, total, edisp.trim_end())` followed
by `writeln!(f)` whenever `i + 1 < total`. -/
def fmtFrom (total : Nat) : Nat → List String → String
  | _, [] => ""
  | i, m :: rest =>
      ("[error " ++ toString (i + 1) ++ " of " ++ toString total ++ "] "
          ++ rustTrimEnd m ++ "\n")
        ++ (if i + 1 < total then "\n" else "")
        ++ fmtFrom total (i + 1) rest

/-- `impl Display for ErrorVec` (`src/errorvec.rs`, `fmt`): `total` is
`self.0.len()`, each element is rendered by its own `Display` (`disp`) and
fed through the loop. -/
def ErrorVec.fmt (disp : E → String) (ev : ErrorVec E) : String :=
  fmtFrom ev.toList.length 0 (ev.toList.map disp)

/-- The `for` loop inside `ResultIterator::into_errorvec_result`
(`src/resiter.rs`): starting from the accumulated `(oks, ev)` state, feed
each result to `ev.take_error`, pushing any `Some(v)` onto `oks`. -/
def into_errorvec_loop (acc : List O × ErrorVec E) :
    List (Except E O) → List O × ErrorVec E
  | [] => acc
  | r :: rest =>
      match acc.2.take_error r with
      | (ev, some v) => into_errorvec_loop (acc.1 ++ [v], ev) rest
      | (ev, none) => into_errorvec_loop (acc.1, ev) rest

/-- `ResultIterator::into_errorvec_result`: run the loop from
`(vec![], ErrorVec::default())`, then `ev.into_result().map(|()| oks)`. -/
def into_errorvec_result (rs : List (Except E O)) : Except (ErrorVec E) (List O) :=
  let p := into_errorvec_loop ([], ErrorVec.default) rs
  p.2.into_result.map fun _ => p.1

/-- The success payload of an outcome, if any (spec vocabulary:
`Success(value)` carries a payload, `Failure` does not). -/
def okPart : Except E O → Option O
  | Except.ok x => some x
  | Except.error _ => none

/-- The error of an outcome, if any (spec vocabulary: `Failure(error)`). -/
def errPart : Except E O → Option E
  | Except.ok _ => none
  | Except.error e => some e

/-- Modelled from the spec (Take-error equivalence): drive a sequence by
calling Take-error-from-outcome once per element in order, starting from an
empty success list and an empty container, appending each returned payload to
the success list. -/
def drive (rs : List (Except E O)) : List O × ErrorVec E :=
  rs.foldl
    (fun acc r =>
      match acc.2.take_error r with
      | (ev, some v) => (acc.1 ++ [v], ev)
      | (ev, none) => (acc.1, ev))
    ([], ErrorVec.default)

/-- One rendered block of the §4.1 rendering contract: the fixed form
`[error K of N] <message>` with `K` 1-based, the message's trailing
whitespace trimmed, emitted as a newline-terminated line. -/
def blockFor (total k : Nat) (m : String) : String :=
  "[error " ++ toString k ++ " of " ++ toString total ++ "] "
    ++ rustTrimEnd m ++ "\n"

/-- The blocks for the messages, numbered from position `i + 1` on. -/
def blocksFrom (total : Nat) : Nat → List String → List String
  | _, [] => []
  | i, m :: rest => blockFor total (i + 1) m :: blocksFrom total (i + 1) rest

/-- Join a list of pieces with a separator between consecutive pieces and
nothing after the last one. -/
def joinSep (sep : String) : List String → String
  | [] => ""
  | [b] => b
  | b :: c :: rest => b ++ sep ++ joinSep sep (c :: rest)

/-- Modelled from the spec (§4.1 rendering contract): one block per message
in order, consecutive blocks separated by exactly one blank line (each block
already ends in a newline, so a single extra newline between blocks is the
blank line), and no trailing blank line after the last block. -/
def specRender (msgs : List String) : String :=
  joinSep "\n" (blocksFrom msgs.length 0 msgs)

theorem errorvec_sanity : ErrorVec.fmt id ⟨["x"]⟩ = "[error 1 of 1] x\n" := by
  decide

/-- The literal scenario of `src/errorvec/tests.rs`: two errors render as two
`[error K of 2]` blocks separated by one blank line, with a final newline and
no trailing blank line. -/
theorem errorvec_display_test_scenario :
    ErrorVec.fmt id
        (ErrorVec.from_iter
          ["No such file or directory (os error 2)", "something borked"]) =
      "[error 1 of 2] No such file or directory (os error 2)\n\n"
        ++ "[error 2 of 2] something borked\n" := by
  decide

/-- Invariant of the adapter's loop: starting from `(oks, ev)`, the loop
appends the success payloads to `oks` and the errors to `ev`, each in input
order. -/
theorem into_errorvec_loop_eq (rs : List (Except E O)) :
    ∀ (oks : List O) (ev : ErrorVec E),
      into_errorvec_loop (oks, ev) rs =
        (oks ++ rs.filterMap okPart, ⟨ev.toList ++ rs.filterMap errPart⟩) := by
  induction rs with
  | nil =>
    intro oks ev
    cases ev
    simp [into_errorvec_loop, okPart, errPart]
  | cons r rest ih =>
    intro oks ev
    cases r with
    | ok x =>
      simp [into_errorvec_loop, ErrorVec.take_error, okPart, errPart, ih]
    | error e =>
      simp [into_errorvec_loop, ErrorVec.take_error, ErrorVec.push, okPart,
        errPart, ih]

/-- Success payloads and errors together account for every input element. -/
theorem okPart_errPart_length (rs : List (Except E O)) :
    (rs.filterMap okPart).length + (rs.filterMap errPart).length = rs.length := by
  induction rs with
  | nil => rfl
  | cons r rest ih =>
    cases r <;> simp [okPart, errPart, List.filterMap_cons] <;> omega

/-- The manual `drive` fold agrees with the adapter's loop from any
accumulated state. -/
theorem drive_foldl_eq_loop (rs : List (Except E O)) :
    ∀ acc : List O × ErrorVec E,
      rs.foldl
          (fun acc r =>
            match acc.2.take_error r with
            | (ev, some v) => (acc.1 ++ [v], ev)
            | (ev, none) => (acc.1, ev))
          acc
        = into_errorvec_loop acc rs := by
  induction rs with
  | nil => intro acc; rfl
  | cons r rest ih =>
    intro acc
    cases r with
    | ok x => exact ih (acc.1 ++ [x], acc.2)
    | error e => exact ih (acc.1, acc.2.push e)

/-- `drive` is the adapter's loop started from the empty state. -/
theorem drive_eq_loop (rs : List (Except E O)) :
    drive rs = into_errorvec_loop ([], ErrorVec.default) rs :=
  drive_foldl_eq_loop rs ([], ErrorVec.default)

/-- Mapping the collected successes over `into_result` is `into_result_with`. -/
theorem into_result_map (ev : ErrorVec E) (oks : List O) :
    ev.into_result.map (fun _ => oks) = ev.into_result_with oks := by
  unfold ErrorVec.into_result ErrorVec.into_result_with
  by_cases h : ev.is_empty <;> simp [h, Except.map]

/-- Claim C1: `into_errorvec_result` yields `Ok` of all success payloads in
their original relative order when the input holds no failure, and `Err` of
the container holding every encountered error in encounter order when it
holds at least one; in particular the empty input yields `Ok([])`. -/
theorem into_errorvec_result_spec (rs : List (Except E O)) :
    into_errorvec_result rs =
      match rs.filterMap errPart with
      | [] => Except.ok (rs.filterMap okPart)
      | e :: es => Except.error ⟨e :: es⟩ := by
  simp only [into_errorvec_result, into_errorvec_loop_eq]
  cases h : rs.filterMap (errPart (E := E) (O := O)) with
  | nil =>
    simp [h, ErrorVec.into_result, ErrorVec.into_result_with, ErrorVec.is_empty,
      ErrorVec.default, Except.map]
  | cons e es =>
    simp [h, ErrorVec.into_result, ErrorVec.into_result_with, ErrorVec.is_empty,
      ErrorVec.default, Except.map]

/-- Claim C5: driving the sequence manually with one `take_error` call per
element, collecting the returned payloads in order, yields exactly the loop
state of `into_errorvec_result`, and collapsing that state reproduces its
result. -/
theorem take_error_drive_matches_adapter (rs : List (Except E O)) :
    drive rs = into_errorvec_loop ([], ErrorVec.default) rs ∧
    into_errorvec_result rs = ((drive rs).2).into_result_with (drive rs).1 := by
  refine ⟨drive_eq_loop rs, ?_⟩
  simp only [into_errorvec_result, drive_eq_loop]
  exact into_result_map _ _

/-- Claim C6: the number of accumulated success payloads plus the number of
accumulated errors equals the length of the input sequence. -/
theorem count_conservation (rs : List (Except E O)) :
    (into_errorvec_loop ([], ErrorVec.default) rs).2.toList.length
        + (into_errorvec_loop ([], ErrorVec.default) rs).1.length
      = rs.length := by
  rw [into_errorvec_loop_eq]
  simp only [ErrorVec.default, List.nil_append]
  rw [Nat.add_comm]
  exact okPart_errPart_length rs

/-- Claim C2: `into_result_with` yields `Ok(value)` exactly when the container
is empty and otherwise `Err(self)` with the container itself (its errors
untouched, in order), and `into_result` is `into_result_with` at `()`. -/
theorem into_result_with_spec (ev : ErrorVec E) (v : T) :
    (ev.into_result_with v =
      match ev.toList with
      | [] => Except.ok v
      | _ :: _ => Except.error ev) ∧
    ev.into_result = ev.into_result_with () := by
  refine ⟨?_, rfl⟩
  cases hev : ev.toList with
  | nil => simp [ErrorVec.into_result_with, ErrorVec.is_empty, hev]
  | cons a l => simp [ErrorVec.into_result_with, ErrorVec.is_empty, hev]

/-- Claim C4: `take_error` on `Ok(x)` returns `Some(x)` with the container
unchanged; on `Err(e)` it appends `e` at the end (prior errors and order
preserved, length up by one) and returns `None`. -/
theorem take_error_spec (ev : ErrorVec E) (x : O) (e : E) :
    ev.take_error (Except.ok x) = (ev, some x) ∧
    ev.take_error (Except.error e : Except E O) = (⟨ev.toList ++ [e]⟩, none) ∧
    ((ev.take_error (Except.error e : Except E O)).1).toList.length
      = ev.toList.length + 1 := by
  refine ⟨rfl, rfl, ?_⟩
  simp [ErrorVec.take_error, ErrorVec.push]

/-- Claim C7: building a container from an ordered sequence stores exactly
that sequence (order and duplicates preserved, nothing dropped or added), and
iterating the container yields the original sequence back. -/
theorem from_iter_into_iter_roundtrip (l : List E) :
    (ErrorVec.from_iter l).into_iter = l ∧ (ErrorVec.from_iter l).toList = l :=
  ⟨rfl, rfl⟩

/-- Claim C8: rendering a container holding zero errors produces exactly the
empty string. -/
theorem fmt_empty_eq_empty_string (disp : E → String) (ev : ErrorVec E)
    (h : ev.toList = []) : ev.fmt disp = "" := by
  simp [ErrorVec.fmt, h, fmtFrom]

/-- Witness for `fmt_empty_eq_empty_string` at the empty container over `Nat`
errors rendered with `toString`. -/
theorem fmt_empty_eq_empty_string_witness :
    (ErrorVec.default : ErrorVec Nat).toList = [] ∧
      (ErrorVec.default : ErrorVec Nat).fmt toString = "" :=
  ⟨rfl, fmt_empty_eq_empty_string toString ErrorVec.default rfl⟩

/-- Unfolding of `fmtFrom` on a non-empty message list, with the rendered
line packaged as `blockFor`. -/
theorem fmtFrom_cons (total i : Nat) (m : String) (rest : List String) :
    fmtFrom total i (m :: rest) =
      blockFor total (i + 1) m ++ (if i + 1 < total then "\n" else "")
        ++ fmtFrom total (i + 1) rest := rfl

/-- `fmtFrom` joins the numbered blocks with a single extra newline between
consecutive blocks, whenever `i` plus the number of remaining messages is the
total count. -/
theorem fmtFrom_eq_joinSep (msgs : List String) :
    ∀ i total, i + msgs.length = total →
      fmtFrom total i msgs = joinSep "\n" (blocksFrom total i msgs) := by
  induction msgs with
  | nil => intro i total _; rfl
  | cons m rest ih =>
    intro i total h
    cases rest with
    | nil =>
      have hlt : ¬ (i + 1 < total) := by
        simp only [List.length_cons, List.length_nil] at h
        omega
      rw [fmtFrom_cons, if_neg hlt, String.append_empty]
      show blockFor total (i + 1) m ++ "" = _
      rw [String.append_empty]
      rfl
    | cons r rs =>
      have hlt : i + 1 < total := by
        simp only [List.length_cons] at h
        omega
      have hih := ih (i + 1) total (by simp only [List.length_cons] at h ⊢; omega)
      rw [fmtFrom_cons, if_pos hlt, hih]
      rfl

/-- Claim C3: the `Display` rendering of a container equals the §4.1
contract: one `[error K of N] <trimmed message>` block per error in insertion
order, 1-based positions, consecutive blocks separated by exactly one blank
line, and no trailing blank line after the last block. -/
theorem display_matches_rendering_contract (disp : E → String) (ev : ErrorVec E) :
    ev.fmt disp = specRender (ev.toList.map disp) := by
  unfold ErrorVec.fmt specRender
  rw [List.length_map]
  exact fmtFrom_eq_joinSep _ 0 _ (by simp)

/-- The head of what `dropWhile` leaves behind falsifies the predicate. -/
theorem dropWhile_eq_cons_not (p : Char → Bool) :
    ∀ (l : List Char) a t, l.dropWhile p = a :: t → p a = false := by
  intro l
  induction l with
  | nil => intro a t h; simp [List.dropWhile] at h
  | cons x xs ih =>
    intro a t h
    by_cases hx : p x
    · rw [List.dropWhile_cons_of_pos hx] at h
      exact ih a t h
    · rw [List.dropWhile_cons_of_neg hx] at h
      injection h with h1 _
      subst h1
      simpa using hx

/-- A trimmed character list is empty or ends in a non-whitespace character. -/
theorem trimEndData_last (cs : List Char) :
    trimEndData cs = [] ∨
      ∃ ds d, trimEndData cs = ds ++ [d] ∧ d.isWhitespace = false := by
  unfold trimEndData
  cases h : cs.reverse.dropWhile Char.isWhitespace with
  | nil => left; simp [h]
  | cons a t =>
    right
    exact ⟨t.reverse, a, by simp [h], dropWhile_eq_cons_not _ _ a t h⟩

/-- Appending a newline after a chunk whose last character is not `'\n'`
followed by a trimmed tail produces a list ending in exactly one newline. -/
theorem append_last_pair (l t : List Char) (x : Char) (hx : x ≠ '\n')
    (hl : ∃ xs, l = xs ++ [x])
    (ht : t = [] ∨ ∃ ds d, t = ds ++ [d] ∧ d.isWhitespace = false) :
    ∃ pre c, l ++ t ++ ['\n'] = pre ++ [c, '\n'] ∧ c ≠ '\n' := by
  obtain ⟨xs, rfl⟩ := hl
  rcases ht with rfl | ⟨ds, d, rfl, hd⟩
  · exact ⟨xs, x, by simp, hx⟩
  · refine ⟨(xs ++ [x]) ++ ds, d, by simp, ?_⟩
    intro hdc
    rw [hdc] at hd
    exact absurd hd (by decide)

/-- Each rendered block ends in exactly one newline: the character before the
final `'\n'` is never itself `'\n'`. -/
theorem blockFor_ends (total k : Nat) (m : String) :
    ∃ pre c, (blockFor total k m).data = pre ++ [c, '\n'] ∧ c ≠ '\n' := by
  have hdata : (blockFor total k m).data =
      ("[error " ++ toString k ++ " of " ++ toString total ++ "] ").data
        ++ trimEndData m.data ++ ['\n'] := by
    simp [blockFor, rustTrimEnd, String.data_append]
  rw [hdata]
  refine append_last_pair _ _ ' ' (by decide)
    ⟨("[error " ++ toString k ++ " of " ++ toString total).data ++ [']'], ?_⟩
    (trimEndData_last m.data)
  simp [String.data_append]

/-- A non-empty run of `fmtFrom` produces text ending in exactly one
newline. -/
theorem fmtFrom_ends (msgs : List String) :
    ∀ i total, i + msgs.length = total → msgs ≠ [] →
      ∃ pre c, (fmtFrom total i msgs).data = pre ++ [c, '\n'] ∧ c ≠ '\n' := by
  induction msgs with
  | nil => intro i total _ hne; exact absurd rfl hne
  | cons m rest ih =>
    intro i total h _
    cases rest with
    | nil =>
      have hlt : ¬ (i + 1 < total) := by
        simp only [List.length_cons, List.length_nil] at h
        omega
      have heq : fmtFrom total i [m] = blockFor total (i + 1) m := by
        rw [fmtFrom_cons, if_neg hlt, String.append_empty]
        show blockFor total (i + 1) m ++ "" = _
        exact String.append_empty _
      rw [heq]
      exact blockFor_ends total (i + 1) m
    | cons r rs =>
      have hlt : i + 1 < total := by
        simp only [List.length_cons] at h
        omega
      obtain ⟨pre, c, hpc, hc⟩ :=
        ih (i + 1) total (by simp only [List.length_cons] at h ⊢; omega) (by simp)
      refine ⟨(blockFor total (i + 1) m ++ "\n").data ++ pre, c, ?_, hc⟩
      rw [fmtFrom_cons, if_pos hlt, String.data_append, hpc]
      simp [List.append_assoc]

/-- Claim C9: for a non-empty container, the rendered text ends with exactly
one newline character (the last block's line terminator) and never with a
blank line: the character preceding the final newline is not a newline. -/
theorem fmt_ends_with_single_newline (disp : E → String) (ev : ErrorVec E)
    (h : ev.toList ≠ []) :
    ∃ pre c, (ev.fmt disp).data = pre ++ [c, '\n'] ∧ c ≠ '\n' := by
  unfold ErrorVec.fmt
  exact fmtFrom_ends (ev.toList.map disp) 0 ev.toList.length (by simp)
    (by simpa using h)

/-- Witness for `fmt_ends_with_single_newline` at a one-error container. -/
theorem fmt_ends_with_single_newline_witness :
    (ErrorVec.mk ["x"]).toList ≠ [] ∧
      ∃ pre c, ((ErrorVec.mk ["x"]).fmt id).data = pre ++ [c, '\n'] ∧ c ≠ '\n' :=
  ⟨by decide, fmt_ends_with_single_newline id ⟨["x"]⟩ (by decide)⟩

/-- Claim C10: the `Deref`/`DerefMut` view of the underlying vector is
transparent: `is_empty` holds exactly when no errors are held, `len` is the
exact count, and `push` through the deref appends at the end leaving all prior
errors in order, exactly as the error-appending path of `take_error` does. -/
theorem deref_vec_delegation (ev : ErrorVec E) (e : E) :
    (ev.is_empty = true ↔ ev.toList = []) ∧
    ev.len = ev.toList.length ∧
    (ev.push e).toList = ev.toList ++ [e] ∧
    (ev.push e).len = ev.len + 1 ∧
    (ev.push e).toList.take ev.len = ev.toList ∧
    (ev.take_error (Except.error e : Except E Unit)).1 = ev.push e := by
  refine ⟨?_, rfl, rfl, ?_, ?_, rfl⟩
  · simp [ErrorVec.is_empty, List.isEmpty_iff]
  · simp [ErrorVec.push, ErrorVec.len]
  · simp [ErrorVec.push, ErrorVec.len]
